import Mathlib

/-!
Shallow embedding of the pegjs2 runtime parse-state module
(src/parser-state.js: the ParserState class together with the
error-description functions of the SyntaxError module it uses).

JavaScript strings are modelled as List Char; JS charCodeAt out of
range (NaN) is modelled with Option Nat; the FAILED sentinel of the
matchers is modelled with Option (none = FAILED).  The sparse position
cache (a JS array indexed by offset) is modelled as an association
list from index to position details.  The expectation stack is a list
whose head is the top frame.
-/

namespace PegRuntime

/-- Tagged expectation values, one constructor per entry of the
DESCRIBE_EXPECTATION_FNS dispatch table of the source. -/
inductive Expectation where
  | literal (text : List Char)
  | cls (parts : List (Char ⊕ (Char × Char))) (inverted : Bool)
  | any
  | «end»
  | rule (description : List Char)
  | user (description : List Char)
  | not (expected : Expectation)
deriving DecidableEq

/-- One entry of the expectation stack: the furthest offset recorded so
far for the enclosing rule attempt and the variants collected there. -/
structure Frame where
  offset : Nat
  variants : List Expectation
deriving DecidableEq

/-- Cached line and column for one offset (the objects stored in the
position cache of the source). -/
structure PosDetails where
  line : Nat
  column : Nat
deriving DecidableEq

structure Position where
  offset : Nat
  line : Nat
  column : Nat
deriving DecidableEq

/-- A source span; stop is the end position of the source object. -/
structure Location where
  source : Option String
  start : Position
  stop : Position
deriving DecidableEq

/-- The structured syntax error.  The message is an Option because
message construction reads one element past the end of an empty
deduplicated phrase list (see describeExpected below); the error
branch is modelled as none. -/
structure SyntaxErr where
  message : Option (List Char)
  expected : Option (List Expectation)
  found : Option (List Char)
  location : Location
deriving DecidableEq

/-- The mutable parser state: input, source tag, current offset, mark,
expectation stack (head = top) and the position cache. -/
structure ParserState where
  input : List Char
  source : Option String
  offset : Nat
  mark : Nat
  expected : List Frame
  cache : List (Nat × PosDetails)
deriving DecidableEq

/-- The constructor of ParserState: both offset and mark start at the
baseline offset, the expectation stack is empty, and the cache array
holds the baseline line and column at index 0 (this is the literal
translation of the source line this.cache = [ left-brace line, column
right-brace ]). -/
def mkParserState (input : List Char) (source : Option String)
    (offset line column : Nat) : ParserState :=
  { input := input, source := source, offset := offset, mark := offset,
    expected := [], cache := [(0, ⟨line, column⟩)] }

/-- Lookup of one index of the sparse cache array. -/
def cacheGet (cache : List (Nat × PosDetails)) (i : Nat) : Option PosDetails :=
  (cache.find? (fun p => p.1 == i)).map (fun p => p.2)

/-- charCodeAt of the source: the character code at an index, none when
the index is out of range (JS yields NaN there, which compares false
against every number). -/
def charCodeAt (input : List Char) (i : Nat) : Option Nat :=
  (input.get? i).map Char.toNat

/-- One step of the forward scan of computePosDetails: code 10 is a
newline, everything else (an out-of-range NaN included) bumps the
column. -/
def stepDetails (code : Option Nat) (d : PosDetails) : PosDetails :=
  if code = some 10 then ⟨d.line + 1, 1⟩ else ⟨d.line, d.column + 1⟩

/-- The forward scan of computePosDetails: advance n characters
starting at index p. -/
def advanceN (input : List Char) : Nat → Nat → PosDetails → PosDetails
  | _, 0, d => d
  | p, n + 1, d => advanceN input (p + 1) n (stepDetails (charCodeAt input p) d)

/-- The backward search of computePosDetails: starting just below pos,
walk down until a cached entry is found (none when no index below pos
is cached; the source would loop forever in that unreachable case). -/
def scanBack (cache : List (Nat × PosDetails)) : Nat → Option (Nat × PosDetails)
  | 0 => none
  | p + 1 =>
    match cacheGet cache p with
    | some d => some (p, d)
    | none => scanBack cache p

/-- computePosDetails of the source: answer from the cache when
present, otherwise scan forward from the nearest cached entry below
and memoize the answer. -/
def computePosDetails (s : ParserState) (pos : Nat) : PosDetails × ParserState :=
  match cacheGet s.cache pos with
  | some d => (d, s)
  | none =>
    match scanBack s.cache pos with
    | none => (⟨0, 0⟩, s)
    | some (p, d0) =>
      let d := advanceN s.input p (pos - p) d0
      (d, { s with cache := (pos, d) :: s.cache })

/-- computeLocation of the source, threading the cache through the two
position queries. -/
def computeLocation (s : ParserState) (startPos endPos : Nat) :
    Location × ParserState :=
  let r1 := computePosDetails s startPos
  let r2 := computePosDetails r1.2 endPos
  ({ source := s.source,
     start := { offset := startPos, line := r1.1.line, column := r1.1.column },
     stop := { offset := endPos, line := r2.1.line, column := r2.1.column } },
   r2.2)

/-- Reference line and column computation, written from the spec: a
direct, non-cached linear scan over the first pos characters of the
input from the baseline, where a newline increments the line and
resets the column to 1 and every other character increments the
column. -/
def scanSpec (input : List Char) (base : PosDetails) (pos : Nat) : PosDetails :=
  (input.take pos).foldl
    (fun d ch => if ch = '\n' then ⟨d.line + 1, 1⟩ else ⟨d.line, d.column + 1⟩)
    base

/-- Cache soundness: index 0 is cached with the baseline and every
cached entry agrees with the direct scan from the baseline. -/
def CacheOk (input : List Char) (base : PosDetails)
    (cache : List (Nat × PosDetails)) : Prop :=
  cacheGet cache 0 = some base ∧
  ∀ i d, cacheGet cache i = some d → d = scanSpec input base i

/-- Run a sequence of position queries left to right, threading the
memoizing state, and collect the answers. -/
def runLocationQueries (s : ParserState) : List Nat → List PosDetails × ParserState
  | [] => ([], s)
  | q :: rest =>
    let r := computePosDetails s q
    let rs := runLocationQueries r.2 rest
    (r.1 :: rs.1, rs.2)

/-- The inversion applied by end with invert = true: wrap in not, or
unwrap a not (the arrow function inside the variants.map of the
source). -/
def invertVariant (e : Expectation) : Expectation :=
  match e with
  | .not inner => inner
  | e => .not e

/-- The end method of the source on the expectation stack (head =
top): pop the top frame; when the new top records the same offset,
append the popped variants (inverted when invert is true) to the new
top, otherwise leave the new top unchanged.  none models the stack
underflow the source would crash on. -/
def endFrame (invert : Bool) (stack : List Frame) : Option (List Frame) :=
  match stack with
  | popped :: top :: rest =>
    if top.offset ≠ popped.offset then some (top :: rest)
    else
      let variants := if invert then popped.variants.map invertVariant else popped.variants
      some ({ top with variants := top.variants ++ variants } :: rest)
  | _ => none

/-- The begin method of the source: push a fresh frame at the current
offset. -/
def beginFrame (s : ParserState) : ParserState :=
  { s with expected := ⟨s.offset, []⟩ :: s.expected }

/-- The expect method of the source at the frame level: ignore below
the recorded offset, reset above it, append at it. -/
def expectAt (fr : Frame) (cur : Nat) (e : Expectation) : Frame :=
  if cur < fr.offset then fr
  else if fr.offset < cur then ⟨cur, [e]⟩
  else ⟨fr.offset, fr.variants ++ [e]⟩

/-- The expect method of the source on the full state: update the top
frame with the current offset (no-op on an empty stack, which the
source would crash on). -/
def expectS (e : Expectation) (s : ParserState) : ParserState :=
  match s.expected with
  | [] => s
  | top :: rest => { s with expected := expectAt top s.offset e :: rest }

/-- A sequence of expect calls against one frame, each call tagged
with the current offset at the time of the call. -/
def runExpectFrames (fr : Frame) (steps : List (Nat × Expectation)) : Frame :=
  steps.foldl (fun f st => expectAt f st.1 st.2) fr

/-- The same sequence at the state level: each step first sets the
current offset, then registers the expectation. -/
def runExpectSeq (s : ParserState) (steps : List (Nat × Expectation)) : ParserState :=
  steps.foldl (fun st p => expectS p.2 { st with offset := p.1 }) s

/-- The maximum of a starting offset and the offsets of a step list. -/
def maxOffset (o : Nat) (steps : List (Nat × Expectation)) : Nat :=
  steps.foldl (fun m st => max m st.1) o

/-- matchAny of the source: consume one character when one remains. -/
def matchAny (s : ParserState) : Option (List Char) × ParserState :=
  if h : s.offset < s.input.length then
    (some [s.input.get ⟨s.offset, h⟩], { s with offset := s.offset + 1 })
  else (none, s)

/-- The regexp test of matchClass, modelled for the character-class
regexps the generated code passes: a predicate on the single character
of the one-character string charAt yields, false on the empty string
charAt yields at or past the end of the input (a character class never
matches the empty string). -/
def regexTest (re : Char → Bool) (chr : Option Char) : Bool :=
  match chr with
  | some c => re c
  | none => false

/-- charAt of the source as an optional character (the empty string it
returns out of range is none). -/
def charAt (input : List Char) (i : Nat) : Option Char :=
  input.get? i

/-- matchClass of the source: test the character at the current offset
against the class and consume it on success. -/
def matchClass (re : Char → Bool) (s : ParserState) : Option (List Char) × ParserState :=
  let chr := charAt s.input s.offset
  if regexTest re chr then (some chr.toList, { s with offset := s.offset + 1 })
  else (none, s)

/-- matchChar of the source: compare the character code at the current
offset against charCode and return the supplied char on success. -/
def matchChar (char : Char) (charCode : Nat) (s : ParserState) :
    Option (List Char) × ParserState :=
  if charCodeAt s.input s.offset = some charCode then
    (some [char], { s with offset := s.offset + 1 })
  else (none, s)

/-- matchLiteral of the source: compare the next literal.length
characters against the literal and return the literal on success. -/
def matchLiteral (lit : List Char) (s : ParserState) :
    Option (List Char) × ParserState :=
  let txt := (s.input.drop s.offset).take lit.length
  if txt = lit then (some lit, { s with offset := s.offset + lit.length })
  else (none, s)

/-- matchLiteralIC of the source: lower-case the next literal.length
characters of the input, compare them against the literal verbatim,
and return the actual input substring on success.  Char.toLower models
the ASCII case folding of toLowerCase. -/
def matchLiteralIC (lit : List Char) (s : ParserState) :
    Option (List Char) × ParserState :=
  let txt := (s.input.drop s.offset).take lit.length
  if txt.map Char.toLower = lit then
    (some txt, { s with offset := s.offset + lit.length })
  else (none, s)

/-- Effect contract of one primitive matcher run from state s: either
the matcher returned the text it consumed from the input at the
current offset and advanced the offset by exactly the length of that
text, leaving every other component of the state unchanged, or it
returned the FAILED sentinel and left the whole state unchanged. -/
def MatcherOk (s : ParserState) (r : Option (List Char) × ParserState) : Prop :=
  (∃ t, r.1 = some t ∧ r.2 = { s with offset := s.offset + t.length } ∧
        t = (s.input.drop s.offset).take t.length) ∨
  r = (none, s)

/-- Upper-case hexadecimal digit of a value below 16 (the
toString(16).toUpperCase() of the source). -/
def hexDigit (n : Nat) : Char :=
  if n < 10 then Char.ofNat (48 + n) else Char.ofNat (55 + n)

/-- literalEscape of the source on one character.  The replace chain
of the source rewrites each character by the first matching rule and
never creates a character a later rule matches, so it acts
characterwise. -/
def literalEscapeChar (c : Char) : List Char :=
  if c = '\\' then ['\\', '\\']
  else if c = '"' then ['\\', '"']
  else if c.toNat = 0 then ['\\', '0']
  else if c = '\t' then ['\\', 't']
  else if c = '\n' then ['\\', 'n']
  else if c = '\r' then ['\\', 'r']
  else if c.toNat ≤ 15 then ['\\', 'x', '0', hexDigit c.toNat]
  else if c.toNat ≤ 31 ∨ (127 ≤ c.toNat ∧ c.toNat ≤ 159) then
    ['\\', 'x', hexDigit (c.toNat / 16), hexDigit (c.toNat % 16)]
  else [c]

/-- literalEscape of the source on a whole string. -/
def literalEscape (str : List Char) : List Char :=
  (str.map literalEscapeChar).flatten

/-- classEscape of the source on one character (like literalEscape,
with bracket, caret and hyphen instead of the double quote). -/
def classEscapeChar (c : Char) : List Char :=
  if c = '\\' then ['\\', '\\']
  else if c = ']' then ['\\', ']']
  else if c = '^' then ['\\', '^']
  else if c = '-' then ['\\', '-']
  else if c.toNat = 0 then ['\\', '0']
  else if c = '\t' then ['\\', 't']
  else if c = '\n' then ['\\', 'n']
  else if c = '\r' then ['\\', 'r']
  else if c.toNat ≤ 15 then ['\\', 'x', '0', hexDigit c.toNat]
  else if c.toNat ≤ 31 ∨ (127 ≤ c.toNat ∧ c.toNat ≤ 159) then
    ['\\', 'x', hexDigit (c.toNat / 16), hexDigit (c.toNat % 16)]
  else [c]

/-- classEscape of the source on a whole string. -/
def classEscape (str : List Char) : List Char :=
  (str.map classEscapeChar).flatten

/-- Rendering of one class part: a bare character or a low-high
range. -/
def renderClassPart (part : Char ⊕ (Char × Char)) : List Char :=
  match part with
  | .inl c => classEscape [c]
  | .inr (lo, hi) => classEscape [lo] ++ ['-'] ++ classEscape [hi]

/-- Join a list of strings with a separator (the JS join; the class
rendering of the source coerces the array of escaped parts into the
bracket string, which joins the parts with commas). -/
def joinWith (sep : List Char) : List (List Char) → List Char
  | [] => []
  | [x] => x
  | x :: xs => x ++ sep ++ joinWith sep xs

/-- describeExpectation of the source: the dispatch table mapping each
expectation to its phrase. -/
def describeExpectation : Expectation → List Char
  | .literal text => '"' :: (literalEscape text ++ ['"'])
  | .cls parts inverted =>
    '[' :: ((if inverted then ['^'] else [])
        ++ joinWith [','] (parts.map renderClassPart) ++ [']'])
  | .any => "any character".toList
  | .«end» => "end of input".toList
  | .rule d => d
  | .user d => d
  | .not e => "not ".toList ++ describeExpectation e

/-- The code-unit comparison JS uses to sort strings: true when a
sorts no later than b. -/
def strLe : List Char → List Char → Bool
  | [], _ => true
  | _ :: _, [] => false
  | a :: as, b :: bs =>
    if a.toNat < b.toNat then true
    else if b.toNat < a.toNat then false
    else strLe as bs

/-- The in-place deduplication loop of describeExpected after the
first element: drop an element equal to its immediate predecessor in
the original list, keep it otherwise. -/
def dedupAux (prev : List Char) : List (List Char) → List (List Char)
  | [] => []
  | y :: ys => if y = prev then dedupAux y ys else y :: dedupAux y ys

/-- The in-place deduplication loop of describeExpected: the first
element is always kept. -/
def dedupAdj : List (List Char) → List (List Char)
  | [] => []
  | x :: xs => x :: dedupAux x xs

/-- The sort-then-dedup phase of describeExpected.  The sort of the
source is the default comparison sort on strings, modelled by
insertion sort under the code-unit order. -/
def sortDedup (phrases : List (List Char)) : List (List Char) :=
  dedupAdj (List.insertionSort (fun a b => strLe a b = true) phrases)

/-- The final switch of describeExpected: one phrase unchanged, two
joined with or, three or more with commas and a final or.  On the
empty list the default branch of the source reads one element past the
end, modelled as none. -/
def joinDescriptions : List (List Char) → Option (List Char)
  | [] => none
  | [d] => some d
  | [d1, d2] => some (d1 ++ " or ".toList ++ d2)
  | ds => some (joinWith ", ".toList ds.dropLast ++ ", or ".toList
                ++ (ds.getLast?.getD []))

/-- describeExpected of the source: render, sort, dedup, join. -/
def describeExpected (expected : List Expectation) : Option (List Char) :=
  joinDescriptions (sortDedup (expected.map describeExpectation))

/-- describeFound of the source: the condition is JS truthiness, so
both null and the empty string yield the fixed end-of-input phrase. -/
def describeFound (found : Option (List Char)) : List Char :=
  match found with
  | some (c :: cs) => '"' :: (literalEscape (c :: cs) ++ ['"'])
  | _ => "end of input".toList

/-- buildMessage of the source; none when describeExpected hits its
error branch. -/
def buildMessage (expected : List Expectation) (found : Option (List Char)) :
    Option (List Char) :=
  (describeExpected expected).map
    (fun d => "Expected ".toList ++ d ++ " but ".toList
              ++ describeFound found ++ " found.".toList)

/-- buildError of the source: read the root frame (the bottom of the
expectation stack), sample the character at its offset (null at the
end of the input), build a one-character location there (zero-width at
the end of the input) and assemble the structured error.  none models
the crash on an empty stack. -/
def buildError (s : ParserState) : Option SyntaxErr :=
  match s.expected.getLast? with
  | none => none
  | some fr =>
    let failPos := fr.offset
    let found := if failPos < s.input.length
                 then some ((s.input.drop failPos).take 1) else none
    let loc := if failPos < s.input.length
               then (computeLocation s failPos (failPos + 1)).1
               else (computeLocation s failPos failPos).1
    some { message := buildMessage fr.variants found,
           expected := some fr.variants, found := found, location := loc }

/-- A rule function: zero-argument in the source, here it consumes and
returns the state, yielding none for the FAILED sentinel. -/
def RuleFn (α : Type) := ParserState → Option α × ParserState

/-- parse of the source: push the root frame, run the rule function,
return its result when it succeeded and consumed the whole input;
otherwise register an end-of-input expectation when input remains and
throw the error built from the root frame. -/
def parse {α : Type} (ruleFn : RuleFn α) (s : ParserState) :
    Except (Option SyntaxErr) (α × ParserState) :=
  let s1 := beginFrame s
  match ruleFn s1 with
  | (some v, s2) =>
    if s2.offset = s2.input.length then .ok (v, s2)
    else if s2.offset < s2.input.length then
      .error (buildError (expectS Expectation.«end» s2))
    else .error (buildError s2)
  | (none, s2) => .error (buildError s2)

/-! Helper lemmas shared by the claim theorems. -/

lemma char_toNat_injective {a b : Char} (h : a.toNat = b.toNat) : a = b := by
  rw [← Char.ofNat_toNat a, ← Char.ofNat_toNat b, h]

lemma take_one_drop (l : List Char) (n : Nat) (h : n < l.length) :
    (l.drop n).take 1 = [l.get ⟨n, h⟩] := by
  induction l generalizing n with
  | nil => simp at h
  | cons a as ih =>
    cases n with
    | zero => simp
    | succ m => simpa using ih m (by simpa using h)

/-! Claim C1: the merge condition of the end method. -/

/-- Claim C1 as stated is false on the code: a popped frame whose
recorded offset is strictly ahead of (hence not behind) the new top
is discarded, not merged. -/
theorem endFrame_ahead_discarded_cex :
    endFrame false [⟨1, [Expectation.any]⟩, ⟨0, []⟩] = some [⟨0, []⟩] ∧
    (0 : Nat) ≤ 1 := by
  decide

/-- Claim C1 (amended): a frame popped by end has its variants merged
into the new top frame exactly when the popped offset equals the new
top offset; with invert = true each variant is wrapped in not (or
unwrapped when already not); on unequal offsets the popped variants
are discarded and the top frame is unchanged. -/
theorem endFrame_merges_exactly_on_equal_offsets
    (invert : Bool) (popped top : Frame) (rest : List Frame) :
    (popped.offset = top.offset →
      endFrame invert (popped :: top :: rest) =
        some ({ offset := top.offset,
                variants := top.variants ++
                  (if invert then popped.variants.map invertVariant
                   else popped.variants) } :: rest)) ∧
    (popped.offset ≠ top.offset →
      endFrame invert (popped :: top :: rest) = some (top :: rest)) ∧
    (∀ e, invertVariant (Expectation.not e) = e) ∧
    (∀ e, (∀ i, e ≠ Expectation.not i) → invertVariant e = Expectation.not e) := by
  refine ⟨?_, ?_, fun e => rfl, ?_⟩
  · intro h
    simp [endFrame, h]
  · intro h
    have hne : top.offset ≠ popped.offset := fun hc => h (Eq.symm hc)
    simp [endFrame, hne]
  · intro e he
    cases e with
    | not i => exact absurd rfl (he i)
    | _ => rfl

/-- Witness for the amended C1 theorem at concrete frames: a merge at
equal offsets with inversion, and a discard at unequal offsets. -/
theorem endFrame_merges_exactly_on_equal_offsets_witness :
    endFrame true
        [⟨2, [Expectation.any, Expectation.not Expectation.any]⟩,
         ⟨2, [Expectation.«end»]⟩] =
      some [⟨2, [Expectation.«end», Expectation.not Expectation.any,
                 Expectation.any]⟩] ∧
    endFrame false [⟨1, [Expectation.any]⟩, ⟨3, []⟩] = some [⟨3, []⟩] :=
  ⟨(endFrame_merges_exactly_on_equal_offsets true
      ⟨2, [Expectation.any, Expectation.not Expectation.any]⟩
      ⟨2, [Expectation.«end»]⟩ []).1 rfl,
   (endFrame_merges_exactly_on_equal_offsets false
      ⟨1, [Expectation.any]⟩ ⟨3, []⟩ []).2.1 (by decide)⟩

/-! Claim C2: monotonicity of expect. -/

lemma le_maxOffset : ∀ (steps : List (Nat × Expectation)) (o : Nat),
    o ≤ maxOffset o steps := by
  intro steps
  induction steps with
  | nil => intro o; exact Nat.le_refl o
  | cons st rest ih =>
    intro o
    have h1 : maxOffset o (st :: rest) = maxOffset (max o st.1) rest := rfl
    rw [h1]
    exact Nat.le_trans (Nat.le_max_left o st.1) (ih (max o st.1))

lemma runExpectFrames_general :
    ∀ (steps : List (Nat × Expectation)) (o : Nat) (vs : List Expectation),
    runExpectFrames ⟨o, vs⟩ steps =
      ⟨maxOffset o steps,
       (if maxOffset o steps = o then vs else []) ++
         (steps.filter (fun st => st.1 == maxOffset o steps)).map Prod.snd⟩ := by
  intro steps
  induction steps with
  | nil =>
    intro o vs
    simp [runExpectFrames, maxOffset]
  | cons st rest ih =>
    intro o vs
    obtain ⟨p, e⟩ := st
    have hstep : runExpectFrames ⟨o, vs⟩ ((p, e) :: rest) =
        runExpectFrames (expectAt ⟨o, vs⟩ p e) rest := rfl
    have hmax : maxOffset o ((p, e) :: rest) = maxOffset (max o p) rest := rfl
    rcases Nat.lt_trichotomy p o with hlt | heq | hgt
    · have hexp : expectAt ⟨o, vs⟩ p e = ⟨o, vs⟩ := by
        simp [expectAt, hlt]
      have hmo : max o p = o := Nat.max_eq_left (Nat.le_of_lt hlt)
      rw [hstep, hexp, ih o vs]
      simp only [hmax, hmo]
      have hpm : (p == maxOffset o rest) = false := by
        have := le_maxOffset rest o
        simp only [beq_eq_false_iff_ne, ne_eq]
        omega
      rw [List.filter_cons]
      simp [hpm]
    · subst heq
      have hexp : expectAt ⟨p, vs⟩ p e = ⟨p, vs ++ [e]⟩ := by
        simp [expectAt]
      have hmo : max p p = p := Nat.max_self p
      rw [hstep, hexp, ih p (vs ++ [e])]
      simp only [hmax, hmo]
      by_cases hM : maxOffset p rest = p
      · rw [if_pos hM, if_pos hM, List.filter_cons]
        have hkeep : (p == maxOffset p rest) = true := by
          simp [hM]
        simp [hkeep]
      · rw [if_neg hM, if_neg hM, List.filter_cons]
        have hdrop : (p == maxOffset p rest) = false := by
          simp only [beq_eq_false_iff_ne, ne_eq]
          exact fun hc => hM (Eq.symm hc)
        simp [hdrop]
    · have hexp : expectAt ⟨o, vs⟩ p e = ⟨p, [e]⟩ := by
        simp [expectAt, Nat.not_lt.2 (Nat.le_of_lt hgt), hgt]
      have hmo : max o p = p := Nat.max_eq_right (Nat.le_of_lt hgt)
      rw [hstep, hexp, ih p [e]]
      simp only [hmax, hmo]
      have hMo : maxOffset p rest ≠ o := by
        have := le_maxOffset rest p
        omega
      rw [if_neg hMo, List.filter_cons]
      by_cases hM : maxOffset p rest = p
      · rw [if_pos hM]
        have hkeep : (p == maxOffset p rest) = true := by
          simp [hM]
        simp [hkeep]
      · rw [if_neg hM]
        have hdrop : (p == maxOffset p rest) = false := by
          simp only [beq_eq_false_iff_ne, ne_eq]
          exact fun hc => hM (Eq.symm hc)
        simp [hdrop]

lemma runExpectSeq_expected :
    ∀ (steps : List (Nat × Expectation)) (s : ParserState) (top : Frame)
      (rest : List Frame), s.expected = top :: rest →
    (runExpectSeq s steps).expected = runExpectFrames top steps :: rest := by
  intro steps
  induction steps with
  | nil => intro s top rest h; exact h
  | cons st rest2 ih =>
    intro s top rrest h
    have h1 : runExpectSeq s (st :: rest2) =
        runExpectSeq (expectS st.2 { s with offset := st.1 }) rest2 := rfl
    have h2 : (expectS st.2 { s with offset := st.1 }).expected =
        expectAt top st.1 st.2 :: rrest := by
      simp [expectS, h]
    rw [h1, ih _ _ _ h2]
    rfl

/-- Claim C2: for a fresh top frame begun at offset o0, a sequence of
expect calls interleaved with arbitrary offset changes leaves in the
frame exactly the expectations registered while the current offset
equalled the maximum offset seen (the maximum of o0 and the call
offsets), in registration order; expectations registered at lower
offsets never appear, and the recorded offset is that maximum. -/
theorem expect_keeps_only_max_offset (s : ParserState) (o0 : Nat)
    (rest : List Frame) (steps : List (Nat × Expectation))
    (h : s.expected = ⟨o0, []⟩ :: rest) :
    (runExpectSeq s steps).expected =
      ⟨maxOffset o0 steps,
       (steps.filter (fun st => st.1 == maxOffset o0 steps)).map Prod.snd⟩ ::
      rest := by
  rw [runExpectSeq_expected steps s ⟨o0, []⟩ rest h, runExpectFrames_general]
  simp

/-- Witness for the C2 theorem: a concrete run whose offsets go up,
back down, and up again; only the expectations registered at the
maximum offset 2 survive, in order. -/
theorem expect_keeps_only_max_offset_witness :
    (runExpectSeq (beginFrame (mkParserState ['a', 'b'] none 0 1 1))
        [(1, Expectation.any), (0, Expectation.rule ['r']),
         (1, Expectation.«end»), (2, Expectation.any),
         (1, Expectation.any), (2, Expectation.«end»)]).expected =
      [⟨2, [Expectation.any, Expectation.«end»]⟩] :=
  expect_keeps_only_max_offset (beginFrame (mkParserState ['a', 'b'] none 0 1 1))
    0 []
    [(1, Expectation.any), (0, Expectation.rule ['r']),
     (1, Expectation.«end»), (2, Expectation.any),
     (1, Expectation.any), (2, Expectation.«end»)] rfl

/-! Claim C3: the parse entry point. -/

/-- Claim C3: parse pushes the root frame and runs the rule function;
a non-failed result with the whole input consumed is returned
unchanged with no error construction; a non-failed result with input
remaining registers an end-of-input expectation at the current offset
and raises the error built from the state; a failed result raises the
error built from the state. -/
theorem parse_spec {α : Type} (ruleFn : RuleFn α) (s0 : ParserState) :
    (∀ v s2, ruleFn (beginFrame s0) = (some v, s2) →
      s2.offset = s2.input.length → parse ruleFn s0 = .ok (v, s2)) ∧
    (∀ v s2, ruleFn (beginFrame s0) = (some v, s2) →
      s2.offset < s2.input.length →
      parse ruleFn s0 = .error (buildError (expectS Expectation.«end» s2))) ∧
    (∀ s2, ruleFn (beginFrame s0) = (none, s2) →
      parse ruleFn s0 = .error (buildError s2)) := by
  refine ⟨?_, ?_, ?_⟩
  · intro v s2 hr he
    simp [parse, hr, he]
  · intro v s2 hr hlt
    have hne : s2.offset ≠ s2.input.length := Nat.ne_of_lt hlt
    simp [parse, hr, hne, hlt]
  · intro s2 hr
    simp [parse, hr]

/-- Witness for the C3 theorem: a rule function that succeeds after
consuming the whole input has its result returned unchanged. -/
theorem parse_spec_witness :
    parse (fun (s : ParserState) =>
        ((some 7 : Option Nat), { s with offset := s.input.length }))
      (mkParserState ['a'] none 0 1 1) =
      .ok (7, (⟨['a'], none, 1, 0, [⟨0, []⟩], [(0, ⟨1, 1⟩)]⟩ : ParserState)) :=
  (parse_spec (fun s => ((some 7 : Option Nat), { s with offset := s.input.length }))
      (mkParserState ['a'] none 0 1 1)).1 7
    (⟨['a'], none, 1, 0, [⟨0, []⟩], [(0, ⟨1, 1⟩)]⟩ : ParserState) rfl rfl

/-! Claim C4: the memoizing position computation agrees with the
direct scan, in any query order. -/

lemma cacheGet_cons (cache : List (Nat × PosDetails)) (j : Nat) (d : PosDetails)
    (i : Nat) :
    cacheGet ((j, d) :: cache) i = if j = i then some d else cacheGet cache i := by
  by_cases h : j = i
  · simp [cacheGet, List.find?_cons, h]
  · simp [cacheGet, List.find?_cons, h]

lemma cacheOk_init (input : List Char) (base : PosDetails) :
    CacheOk input base [(0, base)] := by
  constructor
  · rfl
  · intro i d hd
    rw [show ([(0, base)] : List (Nat × PosDetails)) = (0, base) :: [] from rfl,
       cacheGet_cons] at hd
    by_cases h : (0 : Nat) = i
    · rw [if_pos h] at hd
      subst h
      injection hd with hd2
      exact hd2.symm
    · rw [if_neg h] at hd
      simp [cacheGet] at hd

lemma scanBack_spec :
    ∀ (pos : Nat) (cache : List (Nat × PosDetails)) (p : Nat) (d : PosDetails),
    scanBack cache pos = some (p, d) → p < pos ∧ cacheGet cache p = some d := by
  intro pos
  induction pos with
  | zero =>
    intro cache p d h
    simp [scanBack] at h
  | succ k ih =>
    intro cache p d h
    revert h
    show (match cacheGet cache k with
          | some d0 => some (k, d0)
          | none => scanBack cache k) = some (p, d) → _
    cases hck : cacheGet cache k with
    | some d0 =>
      intro h
      injection h with h2
      injection h2 with h3 h4
      subst h3
      subst h4
      exact ⟨Nat.lt_succ_self k, hck⟩
    | none =>
      intro h
      obtain ⟨h1, h2⟩ := ih cache p d h
      exact ⟨Nat.lt_succ_of_lt h1, h2⟩

lemma scanBack_isSome :
    ∀ (pos : Nat) (cache : List (Nat × PosDetails)) (base : PosDetails),
    cacheGet cache 0 = some base → 0 < pos →
    ∃ p d, scanBack cache pos = some (p, d) := by
  intro pos
  induction pos with
  | zero =>
    intro cache base _ h
    exact absurd h (Nat.lt_irrefl 0)
  | succ k ih =>
    intro cache base h0 _
    cases hck : cacheGet cache k with
    | some d =>
      exact ⟨k, d, by simp [scanBack, hck]⟩
    | none =>
      have hk : 0 < k := by
        rcases Nat.eq_zero_or_pos k with hz | h
        · subst hz
          rw [h0] at hck
          cases hck
        · exact h
      obtain ⟨p, d, hp⟩ := ih cache base h0 hk
      exact ⟨p, d, by simp [scanBack, hck, hp]⟩

lemma scanSpec_succ (input : List Char) (base : PosDetails) (p : Nat)
    (hp : p < input.length) :
    scanSpec input base (p + 1) =
      stepDetails (charCodeAt input p) (scanSpec input base p) := by
  have hget : input[p]? = some input[p] := List.getElem?_eq_getElem hp
  have hcc : charCodeAt input p = some (input[p].toNat) := by
    simp [charCodeAt, List.get?_eq_getElem?, hget]
  unfold scanSpec
  rw [List.take_succ, hget]
  simp only [Option.toList_some, List.foldl_append, List.foldl_cons, List.foldl_nil]
  rw [hcc]
  unfold stepDetails
  by_cases hc : input[p] = '\n'
  · have h10 : input[p].toNat = 10 := by rw [hc]; decide
    simp [hc, h10]
  · have h10 : input[p].toNat ≠ 10 :=
      fun hx => hc (char_toNat_injective (by rw [hx]; decide))
    simp [hc, h10]

lemma advanceN_scanSpec (input : List Char) (base : PosDetails) :
    ∀ (n p : Nat), p + n ≤ input.length →
    advanceN input p n (scanSpec input base p) = scanSpec input base (p + n) := by
  intro n
  induction n with
  | zero => intro p _; rfl
  | succ m ih =>
    intro p hpn
    have hp : p < input.length := by omega
    have h1 : advanceN input p (m + 1) (scanSpec input base p) =
        advanceN input (p + 1) m
          (stepDetails (charCodeAt input p) (scanSpec input base p)) := rfl
    rw [h1, ← scanSpec_succ input base p hp]
    rw [ih (p + 1) (by omega)]
    congr 1
    omega

lemma computePosDetails_ok (input : List Char) (base : PosDetails)
    (s : ParserState) (pos : Nat) (hin : s.input = input)
    (hok : CacheOk input base s.cache) (hpos : pos ≤ input.length) :
    (computePosDetails s pos).1 = scanSpec input base pos ∧
    (computePosDetails s pos).2.input = input ∧
    CacheOk input base (computePosDetails s pos).2.cache := by
  obtain ⟨h0, hall⟩ := hok
  cases hc : cacheGet s.cache pos with
  | some d =>
    have hred : computePosDetails s pos = (d, s) := by
      unfold computePosDetails
      rw [hc]
    rw [hred]
    exact ⟨hall pos d hc, hin, h0, hall⟩
  | none =>
    have hpos0 : 0 < pos := by
      rcases Nat.eq_zero_or_pos pos with hz | h
      · subst hz
        rw [h0] at hc
        cases hc
      · exact h
    obtain ⟨p, d0, hsb⟩ := scanBack_isSome pos s.cache base h0 hpos0
    obtain ⟨hplt, hpget⟩ := scanBack_spec pos s.cache p d0 hsb
    have hd0 : d0 = scanSpec input base p := hall p d0 hpget
    have hred : computePosDetails s pos =
        (advanceN s.input p (pos - p) d0,
         { s with cache := (pos, advanceN s.input p (pos - p) d0) :: s.cache }) := by
      unfold computePosDetails
      rw [hc, hsb]
    have hadv : advanceN s.input p (pos - p) d0 = scanSpec input base pos := by
      rw [hin, hd0, advanceN_scanSpec input base (pos - p) p (by omega)]
      congr 1
      omega
    rw [hred]
    refine ⟨hadv, hin, ?_, ?_⟩
    · rw [cacheGet_cons, if_neg (by omega : ¬ pos = 0)]
      exact h0
    · intro i d hd
      rw [cacheGet_cons] at hd
      by_cases hpi : pos = i
      · rw [if_pos hpi] at hd
        injection hd with hd2
        rw [← hd2, ← hpi]
        exact hadv
      · rw [if_neg hpi] at hd
        exact hall i d hd

/-- Claim C4: for any sound cache state and any sequence of offsets
within the input (queried in any order, any number of times), the
memoizing computePosDetails answers exactly what the direct, non-cached
linear scan from the baseline answers, and the cache stays sound, so
caching never changes the observable answer. -/
theorem computePosDetails_matches_direct_scan (input : List Char)
    (base : PosDetails) (s : ParserState) (qs : List Nat)
    (hin : s.input = input) (hok : CacheOk input base s.cache)
    (hqs : ∀ q ∈ qs, q ≤ input.length) :
    (runLocationQueries s qs).1 = qs.map (scanSpec input base) ∧
    CacheOk input base (runLocationQueries s qs).2.cache := by
  induction qs generalizing s with
  | nil => exact ⟨rfl, hok⟩
  | cons q rest ih =>
    obtain ⟨ha, hb, hcok⟩ := computePosDetails_ok input base s q hin hok
      (hqs q (List.mem_cons_self q rest))
    obtain ⟨h1, h2⟩ := ih (computePosDetails s q).2 hb hcok
      (fun r hr => hqs r (List.mem_cons_of_mem q hr))
    have hred : runLocationQueries s (q :: rest) =
        ((computePosDetails s q).1 ::
           (runLocationQueries (computePosDetails s q).2 rest).1,
         (runLocationQueries (computePosDetails s q).2 rest).2) := rfl
    rw [hred]
    constructor
    · rw [List.map_cons]
      simp [ha, h1]
    · exact h2

/-- Witness for the C4 theorem: concrete queries out of order, with
repetitions, on a two-line input, against the freshly constructed
state. -/
theorem computePosDetails_matches_direct_scan_witness :
    (runLocationQueries (mkParserState ['a', '\n', 'b'] none 0 1 1)
        [3, 1, 3, 0, 2]).1 =
      [3, 1, 3, 0, 2].map (scanSpec ['a', '\n', 'b'] ⟨1, 1⟩) ∧
    CacheOk ['a', '\n', 'b'] ⟨1, 1⟩
      (runLocationQueries (mkParserState ['a', '\n', 'b'] none 0 1 1)
        [3, 1, 3, 0, 2]).2.cache :=
  computePosDetails_matches_direct_scan ['a', '\n', 'b'] ⟨1, 1⟩
    (mkParserState ['a', '\n', 'b'] none 0 1 1) [3, 1, 3, 0, 2] rfl
    (cacheOk_init ['a', '\n', 'b'] ⟨1, 1⟩) (by decide)

/-! Claim C5: the position-cache seed of the constructor. -/

/-- Claim C5: the code seeds the cache at array index 0, not at the
baseline offset, so with a non-zero baseline offset the details
computed at the baseline offset itself differ from the configured
baseline line and column. -/
theorem mkParserState_seeds_cache_at_index_zero :
    (mkParserState ['a', 'b'] none 5 3 7).cache = [(0, ⟨3, 7⟩)] ∧
    cacheGet (mkParserState ['a', 'b'] none 5 3 7).cache 5 = none ∧
    (computePosDetails (mkParserState ['a', 'b'] none 5 3 7) 5).1 = ⟨3, 12⟩ ∧
    (computePosDetails (mkParserState ['a', 'b'] none 5 3 7) 5).1 ≠ ⟨3, 7⟩ := by
  decide

/-! Claim C6: matchLiteralIC. -/

/-- Claim C6 as stated is false on the code: matchLiteralIC compares
the lower-cased input text against the pattern verbatim, so a pattern
holding an upper-case letter never matches, even when the input
matches it case-insensitively. -/
theorem matchLiteralIC_uppercase_pattern_cex :
    matchLiteralIC ['A'] (mkParserState ['a'] none 0 1 1) =
      (none, mkParserState ['a'] none 0 1 1) ∧
    ['a'].map Char.toLower = ['A'].map Char.toLower := by
  decide

/-- Claim C6 (amended): matchLiteralIC succeeds exactly when
lower-casing the next literal.length input characters yields the
pattern verbatim (case-insensitive matching provided the pattern is
already lower-case, as the generated code guarantees); on success it
advances the offset by the length of the matched text and returns the
actual input substring, preserving the source casing, not the
pattern. -/
theorem matchLiteralIC_spec (lit : List Char) (s : ParserState) :
    (matchLiteralIC lit s =
      if ((s.input.drop s.offset).take lit.length).map Char.toLower = lit
      then (some ((s.input.drop s.offset).take lit.length),
            { s with offset := s.offset + lit.length })
      else (none, s)) ∧
    (∀ t s2, matchLiteralIC lit s = (some t, s2) →
      t = (s.input.drop s.offset).take lit.length ∧
      t.map Char.toLower = lit ∧
      t.length = lit.length ∧
      s2 = { s with offset := s.offset + t.length }) := by
  constructor
  · rfl
  · intro t s2 h
    unfold matchLiteralIC at h
    by_cases hc : ((s.input.drop s.offset).take lit.length).map Char.toLower = lit
    · rw [if_pos hc] at h
      have h1 : some ((s.input.drop s.offset).take lit.length) = some t :=
        congrArg Prod.fst h
      have h2 : ({ s with offset := s.offset + lit.length } : ParserState) = s2 :=
        congrArg Prod.snd h
      injection h1 with h1b
      have hlen : t.length = lit.length := by
        have h3 := congrArg List.length hc
        rw [List.length_map] at h3
        rw [← h1b]
        exact h3
      refine ⟨h1b.symm, ?_, hlen, ?_⟩
      · rw [← h1b]
        exact hc
      · rw [← h2, hlen]
    · rw [if_neg hc] at h
      exact absurd (congrArg Prod.fst h) (by simp)

/-- Witness for the amended C6 theorem: the lower-case pattern ab
matches the upper-case input AB and the matcher returns the input
text AB, not the pattern. -/
theorem matchLiteralIC_spec_witness :
    (['A', 'B'] : List Char) =
      (((mkParserState ['A', 'B', 'c'] none 0 1 1).input.drop
          (mkParserState ['A', 'B', 'c'] none 0 1 1).offset).take
        (['a', 'b'] : List Char).length) ∧
    (['A', 'B'] : List Char).map Char.toLower = ['a', 'b'] ∧
    (['A', 'B'] : List Char).length = (['a', 'b'] : List Char).length ∧
    ({ mkParserState ['A', 'B', 'c'] none 0 1 1 with offset := 2 } : ParserState) =
      { mkParserState ['A', 'B', 'c'] none 0 1 1 with
        offset := (mkParserState ['A', 'B', 'c'] none 0 1 1).offset +
          (['A', 'B'] : List Char).length } :=
  (matchLiteralIC_spec ['a', 'b'] (mkParserState ['A', 'B', 'c'] none 0 1 1)).2
    ['A', 'B'] { mkParserState ['A', 'B', 'c'] none 0 1 1 with offset := 2 }
    (by decide)

/-! Claim C7: the frame effect of the primitive matchers. -/

/-- Claim C7 as stated is false on the code: matchLiteral with the
empty literal succeeds at end of input (returning the empty text and
not advancing) instead of returning FAILED, and matchChar with an
inconsistent char and charCode pair can return text that is not the
consumed input. -/
theorem matcher_end_of_input_cex :
    matchLiteral [] (mkParserState [] none 0 1 1) =
      (some [], mkParserState [] none 0 1 1) ∧
    (mkParserState [] none 0 1 1).input.length ≤
      (mkParserState [] none 0 1 1).offset ∧
    matchChar 'b' 97 (mkParserState ['a'] none 0 1 1) =
      (some ['b'], { mkParserState ['a'] none 0 1 1 with offset := 1 }) ∧
    ((mkParserState ['a'] none 0 1 1).input.drop
        (mkParserState ['a'] none 0 1 1).offset).take 1 ≠ ['b'] := by
  decide

/-- Claim C7 (amended): each primitive matcher either advances the
offset by exactly the length of the matched input text and returns
that text, or returns FAILED leaving the whole state unchanged (for
matchChar under the consistent charCode the generated code passes);
at or past end of input every matcher fails, except that the literal
matchers succeed on the empty literal with the empty match. -/
theorem matchers_frame_effect (s : ParserState) (re : Char → Bool) (char : Char)
    (charCode : Nat) (lit : List Char) (hcc : charCode = char.toNat) :
    MatcherOk s (matchAny s) ∧
    MatcherOk s (matchClass re s) ∧
    MatcherOk s (matchChar char charCode s) ∧
    MatcherOk s (matchLiteral lit s) ∧
    MatcherOk s (matchLiteralIC lit s) ∧
    (s.input.length ≤ s.offset →
      matchAny s = (none, s) ∧ matchClass re s = (none, s) ∧
      matchChar char charCode s = (none, s) ∧
      (lit ≠ [] →
        matchLiteral lit s = (none, s) ∧ matchLiteralIC lit s = (none, s))) := by
  refine ⟨?_, ?_, ?_, ?_, ?_, ?_⟩
  · by_cases h : s.offset < s.input.length
    · left
      refine ⟨[s.input.get ⟨s.offset, h⟩], ?_, ?_, ?_⟩
      · simp [matchAny, h]
      · simp [matchAny, h]
      · exact (take_one_drop s.input s.offset h).symm
    · right
      simp [matchAny, h]
  · cases hchr : charAt s.input s.offset with
    | none =>
      right
      simp [matchClass, hchr, regexTest]
    | some c =>
      by_cases hre : re c
      · left
        refine ⟨[c], ?_, ?_, ?_⟩
        · simp [matchClass, hchr, regexTest, hre]
        · simp [matchClass, hchr, regexTest, hre]
        · obtain ⟨hlt, hg⟩ := List.get?_eq_some.1 hchr
          show [c] = (s.input.drop s.offset).take 1
          rw [take_one_drop s.input s.offset hlt, hg]
      · right
        simp [matchClass, hchr, regexTest, hre]
  · by_cases h : charCodeAt s.input s.offset = some charCode
    · left
      obtain ⟨c, hc1, hc2⟩ := Option.map_eq_some'.1 h
      have hceq : c = char := char_toNat_injective (by rw [hc2, hcc])
      refine ⟨[char], ?_, ?_, ?_⟩
      · simp [matchChar, h]
      · simp [matchChar, h]
      · obtain ⟨hlt, hg⟩ := List.get?_eq_some.1 hc1
        show [char] = (s.input.drop s.offset).take 1
        rw [take_one_drop s.input s.offset hlt, hg, hceq]
    · right
      simp [matchChar, h]
  · by_cases h : (s.input.drop s.offset).take lit.length = lit
    · left
      refine ⟨lit, ?_, ?_, h.symm⟩
      · simp [matchLiteral, h]
      · simp [matchLiteral, h]
    · right
      simp [matchLiteral, h]
  · by_cases h : ((s.input.drop s.offset).take lit.length).map Char.toLower = lit
    · left
      have hred : matchLiteralIC lit s =
          (some ((s.input.drop s.offset).take lit.length),
           { s with offset := s.offset + lit.length }) := by
        unfold matchLiteralIC
        rw [if_pos h]
      have hlen : ((s.input.drop s.offset).take lit.length).length = lit.length := by
        have h2 := congrArg List.length h
        rwa [List.length_map] at h2
      refine ⟨(s.input.drop s.offset).take lit.length, ?_, ?_, ?_⟩
      · rw [hred]
      · rw [hred, hlen]
      · rw [hlen]
    · right
      unfold matchLiteralIC
      rw [if_neg h]
  · intro hge
    have hgn : s.input.get? s.offset = none := List.get?_eq_none.2 hge
    have hca : charAt s.input s.offset = none := hgn
    have hcn : charCodeAt s.input s.offset = none := by
      unfold charCodeAt
      rw [hgn]
      rfl
    have hdrop : s.input.drop s.offset = [] := List.drop_eq_nil_of_le hge
    refine ⟨?_, ?_, ?_, fun hlit => ⟨?_, ?_⟩⟩
    · simp [matchAny, Nat.not_lt.2 hge]
    · simp [matchClass, hca, regexTest]
    · simp [matchChar, hcn]
    · have htxt : (s.input.drop s.offset).take lit.length = [] := by
        rw [hdrop]
        simp
      unfold matchLiteral
      rw [htxt, if_neg (fun hc => hlit (Eq.symm hc))]
    · have htxt : (s.input.drop s.offset).take lit.length = [] := by
        rw [hdrop]
        simp
      unfold matchLiteralIC
      rw [htxt, if_neg ?hne]
      case hne =>
        intro hc
        exact hlit (Eq.symm (by simpa using hc))

/-- Witness for the amended C7 theorem at a state already past its
input: every matcher with a non-empty argument fails and leaves the
state untouched. -/
theorem matchers_frame_effect_witness :
    matchAny (mkParserState ['x'] none 1 1 1) =
      (none, mkParserState ['x'] none 1 1 1) ∧
    matchClass (fun c => c == 'x') (mkParserState ['x'] none 1 1 1) =
      (none, mkParserState ['x'] none 1 1 1) ∧
    matchChar 'x' 'x'.toNat (mkParserState ['x'] none 1 1 1) =
      (none, mkParserState ['x'] none 1 1 1) ∧
    (matchLiteral ['a'] (mkParserState ['x'] none 1 1 1) =
      (none, mkParserState ['x'] none 1 1 1) ∧
     matchLiteralIC ['a'] (mkParserState ['x'] none 1 1 1) =
      (none, mkParserState ['x'] none 1 1 1)) :=
  have h := (matchers_frame_effect (mkParserState ['x'] none 1 1 1)
      (fun c => c == 'x') 'x' 'x'.toNat ['a'] rfl).2.2.2.2.2 (by decide)
  ⟨h.1, h.2.1, h.2.2.1, h.2.2.2 (by decide)⟩

/-! Claim C8: describeExpected sorts, deduplicates and joins, hence is
invariant under reordering and duplication. -/

lemma strLe_total : ∀ a b : List Char, strLe a b = true ∨ strLe b a = true := by
  intro a
  induction a with
  | nil => intro b; left; rfl
  | cons x xs ih =>
    intro b
    cases b with
    | nil => right; rfl
    | cons y ys =>
      by_cases h1 : x.toNat < y.toNat
      · left
        simp [strLe, h1]
      · by_cases h2 : y.toNat < x.toNat
        · right
          simp [strLe, h2]
        · rcases ih ys with h | h
          · left
            simp [strLe, h1, h2, h]
          · right
            simp [strLe, h1, h2, h]

lemma strLe_trans : ∀ a b c : List Char, strLe a b = true → strLe b c = true →
    strLe a c = true := by
  intro a
  induction a with
  | nil => intro b c _ _; rfl
  | cons x xs ih =>
    intro b c h1 h2
    cases b with
    | nil => simp [strLe] at h1
    | cons y ys =>
      cases c with
      | nil => simp [strLe] at h2
      | cons z zs =>
        by_cases hxy : x.toNat < y.toNat
        · by_cases hyz : y.toNat < z.toNat
          · simp [strLe, show x.toNat < z.toNat by omega]
          · by_cases hzy : z.toNat < y.toNat
            · simp [strLe, hyz, hzy] at h2
            · simp [strLe, show x.toNat < z.toNat by omega]
        · by_cases hyx : y.toNat < x.toNat
          · simp [strLe, hxy, hyx] at h1
          · simp only [strLe] at h1
            rw [if_neg hxy, if_neg hyx] at h1
            by_cases hyz : y.toNat < z.toNat
            · simp [strLe, show x.toNat < z.toNat by omega]
            · by_cases hzy : z.toNat < y.toNat
              · simp [strLe, hyz, hzy] at h2
              · simp only [strLe] at h2
                rw [if_neg hyz, if_neg hzy] at h2
                simp only [strLe]
                rw [if_neg (by omega : ¬ x.toNat < z.toNat),
                    if_neg (by omega : ¬ z.toNat < x.toNat)]
                exact ih ys zs h1 h2

lemma strLe_antisymm : ∀ a b : List Char, strLe a b = true → strLe b a = true →
    a = b := by
  intro a
  induction a with
  | nil =>
    intro b _ h2
    cases b with
    | nil => rfl
    | cons y ys => simp [strLe] at h2
  | cons x xs ih =>
    intro b h1 h2
    cases b with
    | nil => simp [strLe] at h1
    | cons y ys =>
      by_cases hxy : x.toNat < y.toNat
      · simp [strLe, hxy, show ¬ y.toNat < x.toNat by omega] at h2
      · by_cases hyx : y.toNat < x.toNat
        · simp [strLe, hxy, hyx] at h1
        · have hx : x = y := char_toNat_injective (by omega)
          simp only [strLe] at h1 h2
          rw [if_neg hxy, if_neg hyx] at h1
          rw [if_neg hyx, if_neg hxy] at h2
          rw [hx, ih ys h1 h2]

lemma mem_dedupAux : ∀ (xs : List (List Char)) (prev a : List Char),
    a ∈ prev :: dedupAux prev xs ↔ a ∈ prev :: xs := by
  intro xs
  induction xs with
  | nil => intro prev a; rfl
  | cons y ys ih =>
    intro prev a
    by_cases h : y = prev
    · subst h
      rw [show dedupAux y (y :: ys) = dedupAux y ys from by simp [dedupAux]]
      rw [ih y a]
      simp only [List.mem_cons]
      tauto
    · rw [show dedupAux prev (y :: ys) = y :: dedupAux y ys from by
          simp [dedupAux, h]]
      have hy := ih y a
      simp only [List.mem_cons] at hy ⊢
      tauto

lemma sorted_dedupAux : ∀ (xs : List (List Char)) (prev : List Char),
    List.Sorted (fun a b => strLe a b = true) (prev :: xs) →
    List.Sorted (fun a b => strLe a b = true ∧ a ≠ b) (prev :: dedupAux prev xs) := by
  intro xs
  induction xs with
  | nil =>
    intro prev _
    simp [dedupAux]
  | cons y ys ih =>
    intro prev h
    rw [List.sorted_cons] at h
    obtain ⟨hle, hsort⟩ := h
    by_cases hyp : y = prev
    · subst hyp
      rw [show dedupAux y (y :: ys) = dedupAux y ys from by simp [dedupAux]]
      exact ih y hsort
    · rw [show dedupAux prev (y :: ys) = y :: dedupAux y ys from by
          simp [dedupAux, hyp]]
      have hrec := ih y hsort
      rw [List.sorted_cons]
      refine ⟨?_, hrec⟩
      intro b hb
      have hpy : strLe prev y = true := hle y (List.mem_cons_self y ys)
      rcases List.mem_cons.mp hb with rfl | hb2
      · exact ⟨hpy, fun hc => hyp (Eq.symm hc)⟩
      · have hyb := (List.sorted_cons.mp hrec).1 b hb2
        refine ⟨strLe_trans prev y b hpy hyb.1, ?_⟩
        intro hc
        subst hc
        exact hyp (strLe_antisymm y prev hyb.1 hpy)

lemma mem_dedupAdj (l : List (List Char)) (a : List Char) :
    a ∈ dedupAdj l ↔ a ∈ l := by
  cases l with
  | nil => simp [dedupAdj]
  | cons x xs => exact mem_dedupAux xs x a

lemma sorted_dedupAdj (l : List (List Char))
    (h : List.Sorted (fun a b => strLe a b = true) l) :
    List.Sorted (fun a b => strLe a b = true ∧ a ≠ b) (dedupAdj l) := by
  cases l with
  | nil => simp [dedupAdj]
  | cons x xs => exact sorted_dedupAux xs x h

lemma sortDedup_canonical (l1 l2 : List (List Char))
    (h : ∀ a, a ∈ l1 ↔ a ∈ l2) : sortDedup l1 = sortDedup l2 := by
  haveI ht : IsTotal (List Char) (fun a b => strLe a b = true) := ⟨strLe_total⟩
  haveI htr : IsTrans (List Char) (fun a b => strLe a b = true) := ⟨strLe_trans⟩
  haveI ha : IsAntisymm (List Char) (fun a b => strLe a b = true) := ⟨strLe_antisymm⟩
  haveI hi : IsIrrefl (List Char) (fun a b => strLe a b = true ∧ a ≠ b) :=
    ⟨fun _ hx => hx.2 rfl⟩
  have s1 : List.Sorted (fun a b => strLe a b = true ∧ a ≠ b) (sortDedup l1) :=
    sorted_dedupAdj _ (List.sorted_insertionSort _ l1)
  have s2 : List.Sorted (fun a b => strLe a b = true ∧ a ≠ b) (sortDedup l2) :=
    sorted_dedupAdj _ (List.sorted_insertionSort _ l2)
  have n1 : (sortDedup l1).Nodup := s1.nodup
  have n2 : (sortDedup l2).Nodup := s2.nodup
  have hm : ∀ a, a ∈ sortDedup l1 ↔ a ∈ sortDedup l2 := by
    intro a
    rw [sortDedup, sortDedup, mem_dedupAdj, mem_dedupAdj,
        (List.perm_insertionSort _ l1).mem_iff, (List.perm_insertionSort _ l2).mem_iff]
    exact h a
  have hperm : List.Perm (sortDedup l1) (sortDedup l2) :=
    (List.perm_ext_iff_of_nodup n1 n2).2 hm
  exact List.eq_of_perm_of_sorted hperm
    (s1.imp (fun hx => hx.1)) (s2.imp (fun hx => hx.1))

/-- Claim C8: describeExpected renders, sorts, deduplicates and joins:
it depends only on the set of rendered phrases (so it is invariant
under reordering and duplication of its input), a single phrase is
returned unchanged, two distinct ordered phrases join with or, and
three distinct ordered phrases join with commas and a final or. -/
theorem describeExpected_canonical :
    (∀ l1 l2 : List Expectation,
      (∀ p, p ∈ l1.map describeExpectation ↔ p ∈ l2.map describeExpectation) →
      describeExpected l1 = describeExpected l2) ∧
    (∀ e, describeExpected [e] = some (describeExpectation e)) ∧
    (∀ e1 e2, strLe (describeExpectation e1) (describeExpectation e2) = true →
      describeExpectation e1 ≠ describeExpectation e2 →
      describeExpected [e1, e2] =
        some (describeExpectation e1 ++ " or ".toList ++ describeExpectation e2)) ∧
    (∀ e1 e2 e3,
      strLe (describeExpectation e1) (describeExpectation e2) = true →
      describeExpectation e1 ≠ describeExpectation e2 →
      strLe (describeExpectation e2) (describeExpectation e3) = true →
      describeExpectation e2 ≠ describeExpectation e3 →
      describeExpected [e1, e2, e3] =
        some (describeExpectation e1 ++ ", ".toList ++ describeExpectation e2
              ++ ", or ".toList ++ describeExpectation e3)) := by
  refine ⟨?_, ?_, ?_, ?_⟩
  · intro l1 l2 h
    unfold describeExpected
    rw [sortDedup_canonical (l1.map describeExpectation)
        (l2.map describeExpectation) h]
  · intro e
    rfl
  · intro e1 e2 h12 hne12
    have hne21 := Ne.symm hne12
    simp [describeExpected, sortDedup, List.insertionSort, List.orderedInsert,
          dedupAdj, dedupAux, joinDescriptions, h12, hne21]
  · intro e1 e2 e3 h12 hne12 h23 hne23
    have hne21 := Ne.symm hne12
    have hne32 := Ne.symm hne23
    simp [describeExpected, sortDedup, List.insertionSort, List.orderedInsert,
          dedupAdj, dedupAux, joinDescriptions, joinWith, h12, h23, hne21, hne32,
          List.append_assoc]

/-- Witness for the C8 theorem: the concrete instances of the claim,
including describeExpected of the lists any-end-any, end-any, and the
one, two and three phrase join shapes. -/
theorem describeExpected_canonical_witness :
    describeExpected [Expectation.any, Expectation.«end», Expectation.any] =
      describeExpected [Expectation.«end», Expectation.any] ∧
    describeExpected [Expectation.any] = some (describeExpectation Expectation.any) ∧
    describeExpected [Expectation.any, Expectation.«end»] =
      some (describeExpectation Expectation.any ++ " or ".toList
            ++ describeExpectation Expectation.«end») ∧
    describeExpected [Expectation.literal ['x'], Expectation.any, Expectation.«end»] =
      some (describeExpectation (Expectation.literal ['x']) ++ ", ".toList
            ++ describeExpectation Expectation.any ++ ", or ".toList
            ++ describeExpectation Expectation.«end») :=
  ⟨describeExpected_canonical.1 [Expectation.any, Expectation.«end», Expectation.any]
      [Expectation.«end», Expectation.any]
      (by intro p; simp [describeExpectation]; tauto),
   describeExpected_canonical.2.1 Expectation.any,
   describeExpected_canonical.2.2.1 Expectation.any Expectation.«end»
     (by decide) (by decide),
   describeExpected_canonical.2.2.2 (Expectation.literal ['x']) Expectation.any
     Expectation.«end» (by decide) (by decide) (by decide) (by decide)⟩

/-! Claim C9: describeFound. -/

/-- Claim C9 as stated is false on the code: the empty string is a
non-null found value, yet the JS truthiness test sends it to the fixed
end-of-input phrase instead of the quoted-escaped text. -/
theorem describeFound_empty_string_cex :
    describeFound (some []) = "end of input".toList ∧
    describeFound (some []) ≠ '"' :: (literalEscape [] ++ ['"']) := by
  decide

/-- Claim C9 (amended): describeFound returns the quoted, escaped
found text whenever found is a non-null, non-empty string, and returns
the fixed end-of-input phrase exactly when found is null or empty. -/
theorem describeFound_spec :
    (∀ c cs, describeFound (some (c :: cs)) =
      '"' :: (literalEscape (c :: cs) ++ ['"'])) ∧
    describeFound none = "end of input".toList ∧
    describeFound (some []) = "end of input".toList :=
  ⟨fun _ _ => rfl, rfl, rfl⟩

/-! Claim C10: the empty expectation list is an error branch of
describeExpected, reachable through buildError. -/

/-- Claim C10: describeExpected of the empty sequence hits the
out-of-bounds default branch (modelled none), and the branch is
reachable through parse and buildError by a rule function that fails
without registering any expectation: the root frame then has an empty
variant list and the built error carries no message. -/
theorem describeExpected_empty_error_reachable :
    describeExpected ([] : List Expectation) = none ∧
    parse (fun s => ((none : Option Nat), s)) (mkParserState ['a'] none 0 1 1) =
      .error (some
        { message := none, expected := some [], found := some ['a'],
          location :=
            { source := none,
              start := { offset := 0, line := 1, column := 1 },
              stop := { offset := 1, line := 1, column := 2 } } }) :=
  ⟨rfl, rfl⟩

end PegRuntime
